import Mathlib

/-!
Shallow embedding of the DeepPhonemizer fork (src/dp): the sequence
tokenizer (dp/text.py), the deduplication decoder (dp/model_utils.py),
and the best-checkpoint promotion logic of the trainer (dp/trainer.py).
Python dicts are modelled as insertion-ordered association lists with
overwrite-in-place semantics; machine floats carrying probabilities and
error rates are modelled as rationals; Python `str.lower` is modelled by
the character-wise `pyLower` (they agree on the ASCII symbols exercised
here).
-/

namespace DP

/-! ## Insertion-ordered dictionaries (Python `dict`) -/

/-- Python `d[k] = v`: overwrite in place when the key exists (keeping its
position in insertion order), otherwise append the new binding. -/
def dictInsert {κ α : Type} [BEq κ] (d : List (κ × α)) (k : κ) (v : α) :
    List (κ × α) :=
  if d.any (fun p => p.1 == k) then
    d.map (fun p => if p.1 == k then (p.1, v) else p)
  else d ++ [(k, v)]

/-- Python `d.get(k)` / `k in d`: first binding of the key (association
lists built by `dictInsert` have distinct keys). -/
def dictFind? {κ α : Type} [BEq κ] (d : List (κ × α)) (k : κ) : Option α :=
  (d.find? (fun p => p.1 == k)).map Prod.snd

/-- Python `d[k]`, with a default standing in for the `KeyError` case
(every use site below is guarded by a known-key hypothesis). -/
def dictGetD {κ α : Type} [BEq κ] (d : List (κ × α)) (k : κ) (v₀ : α) : α :=
  (dictFind? d k).getD v₀

/-- Python `{i: s for s, i in d.items()}` from `SequenceTokenizer.__init__`:
fold the swapped pairs into a fresh dict, later pairs overwriting earlier
ones on the same index. -/
def invertDict (d : List (String × ℕ)) : List (ℕ × String) :=
  d.foldl (fun acc p => dictInsert acc p.2 p.1) []

/-- Python `str.lower` (used by `SequenceTokenizer.__call__`), modelled
character-wise; `Char.toLower` agrees with Python's lowering on the ASCII
symbols exercised here. -/
def pyLower (s : String) : String := ⟨s.data.map Char.toLower⟩

/-! ## SequenceTokenizer (src/dp/text.py, lines 17-57) -/

structure SequenceTokenizer where
  lowercase : Bool
  append_start_end : Bool
  pad_index : ℕ
  token_to_idx : List (String × ℕ)
  special_tokens : List String
  end_index : ℕ
  idx_to_token : List (ℕ × String)
  vocab_size : ℕ

/-- `SequenceTokenizer.__init__` (src/dp/text.py:19-40).  The Python
`special_tokens` set is modelled as a list with the same membership.
`end_index` is read from the dict right after the end token is inserted,
before the symbol loop, exactly as in the source. -/
def SequenceTokenizer.init (symbols : List String) (languages : List String)
    (lowercase : Bool) (append_start_end : Bool)
    (pad_token : String) (end_token : String) : SequenceTokenizer :=
  let d1 : List (String × ℕ) := [(pad_token, 0)]
  let d2 := languages.foldl
    (fun d lang => dictInsert d ("<" ++ lang ++ ">") d.length) d1
  let d3 := dictInsert d2 end_token d2.length
  let d4 := symbols.foldl (fun d s => dictInsert d s d.length) d3
  let idx_to_token := invertDict d4
  { lowercase := lowercase
    append_start_end := append_start_end
    pad_index := 0
    token_to_idx := d4
    special_tokens :=
      pad_token :: (languages.map (fun lang => "<" ++ lang ++ ">")) ++ [end_token]
    end_index := dictGetD d3 end_token 0
    idx_to_token := idx_to_token
    vocab_size := idx_to_token.length }

/-- `SequenceTokenizer.get_start_index` (src/dp/text.py:56-57); Python
raises `KeyError` on an unknown language, every theorem below supplies a
known one. -/
def SequenceTokenizer.get_start_index (t : SequenceTokenizer)
    (language : String) : ℕ :=
  dictGetD t.token_to_idx ("<" ++ language ++ ">") 0

/-- `SequenceTokenizer.__call__` (src/dp/text.py:42-48).  The comprehension
`[token_to_idx[c] for c in sentence if c in token_to_idx]` is the
`filterMap` of the dictionary lookup. -/
def SequenceTokenizer.call (t : SequenceTokenizer) (sentence : List String)
    (language : String) : List ℕ :=
  let sentence' := if t.lowercase then sentence.map pyLower else sentence
  let sequence := sentence'.filterMap (fun c => dictFind? t.token_to_idx c)
  if t.append_start_end then
    t.get_start_index language :: sequence ++ [t.end_index]
  else sequence

/-- `SequenceTokenizer.decode` (src/dp/text.py:50-54). -/
def SequenceTokenizer.decode (t : SequenceTokenizer) (sequence : List ℕ)
    (remove_special_tokens : Bool) : List String :=
  let decoded := sequence.filterMap (fun i => dictFind? t.idx_to_token i)
  if remove_special_tokens then
    decoded.filter (fun d => !(t.special_tokens.contains d))
  else decoded

/-- The vocabulary tokens of `SequenceTokenizer.init` (defaults
`pad_token = "_"`, `end_token = "<end>"`) in insertion order: pad, one
start token per language, end token, then the symbols. -/
def allTokens (symbols : List String) (languages : List String) : List String :=
  ("_" :: languages.map (fun lang => "<" ++ lang ++ ">") ++ ["<end>"]) ++ symbols

/-! ## Deduplication decoder (src/dp/model_utils.py, lines 7-34)

The source first applies a softmax over the class axis and takes, per
timestep, the arg-max probability and class index (`torch.max`, lines
12-16).  Those per-timestep `(max probability, arg-max class)` pairs are
the input of the embedding below; the collapse logic of lines 17-32 is
embedded verbatim on them. -/

/-- `torch.unique_consecutive(xs, return_counts=True)`: the values of the
maximal runs of consecutive equal elements, paired with the run lengths
(the source receives them as two aligned tensors). -/
def unique_consecutive : List ℕ → List (ℕ × ℕ)
  | [] => []
  | x :: xs =>
    match unique_consecutive xs with
    | [] => [(x, 1)]
    | (y, c) :: rest =>
      if x = y then (x, c + 1) :: rest else (x, 1) :: (y, c) :: rest

/-- `tensor.max()` of a nonempty tensor, as used on each run slice
(src/dp/model_utils.py:24); the empty case is never reached because every
run count is positive. -/
def listMax : List ℚ → ℚ
  | [] => 0
  | x :: xs => xs.foldl max x

/-- The loop of src/dp/model_utils.py:22-26: walk the run counts, and for
each count take the maximum of the next `c` probabilities
(`max_logits[ind:ind + c].max()`, with `ind = ind + c`). -/
def sliceMax (max_logits : List ℚ) : List ℕ → List ℚ
  | [] => []
  | c :: cs => listMax (max_logits.take c) :: sliceMax (max_logits.drop c) cs

/-- The per-batch-element body of `get_dedup_tokens`
(src/dp/model_utils.py:15-29): drop the timesteps whose arg-max class is
the blank index 0 (`max_logits[max_indices!=0]`), collapse consecutive
runs, and keep the per-run maximum probability.  A frame is the pair
`(arg-max probability, arg-max class)` of one timestep. -/
def get_dedup_tokens_elem (frames : List (ℚ × ℕ)) : List ℕ × List ℚ :=
  let kept := frames.filter (fun f => f.2 != 0)
  let max_logits := kept.map Prod.fst
  let max_indices := kept.map Prod.snd
  let uc := unique_consecutive max_indices
  (uc.map Prod.fst, sliceMax max_logits (uc.map Prod.snd))

/-- `torch.nn.utils.rnn.pad_sequence(_, batch_first=True, padding_value)`:
right-pad every sequence to the maximum length across the batch, keeping
the batch-first layout. -/
def pad_sequence {α : Type} (padding_value : α) (seqs : List (List α)) :
    List (List α) :=
  let maxLen := (seqs.map List.length).foldl max 0
  seqs.map (fun s => s ++ List.replicate (maxLen - s.length) padding_value)

/-- `get_dedup_tokens` (src/dp/model_utils.py:7-34) on a batch of frame
sequences: per-element collapse, then padding of both outputs with 0. -/
def get_dedup_tokens (batch : List (List (ℚ × ℕ))) :
    List (List ℕ) × List (List ℚ) :=
  let outs := batch.map get_dedup_tokens_elem
  (pad_sequence 0 (outs.map Prod.fst), pad_sequence 0 (outs.map Prod.snd))

/-- Spec-side run decomposition: group the blank-free frames into maximal
runs of equal class index, collecting the probabilities of each run.
Used only to state the run-confidence claims against the source. -/
def rle : List (ℚ × ℕ) → List (ℕ × List ℚ)
  | [] => []
  | (p, t) :: xs =>
    match rle xs with
    | [] => [(t, [p])]
    | (t', ps) :: rest =>
      if t = t' then (t, p :: ps) :: rest else (t, [p]) :: (t', ps) :: rest

/-- Spec-side confidences, step 5 of the spec's algorithm: the maximum
per-timestep probability within each collapsed run. -/
def run_confidences_max (frames : List (ℚ × ℕ)) : List ℚ :=
  (rle (frames.filter (fun f => f.2 != 0))).map (fun g => listMax g.2)

/-- The alternative the spec rules out: the mean per-timestep probability
within each collapsed run. -/
def run_confidences_mean (frames : List (ℚ × ℕ)) : List ℚ :=
  (rle (frames.filter (fun f => f.2 != 0))).map
    (fun g => g.2.sum / (g.2.length : ℚ))

/-! ## Trainer: best-checkpoint promotion (src/dp/trainer.py)

`Trainer.train` initialises `best_per = math.inf` (line 53) and, at every
generate-step cycle, saves the best-model checkpoints when
`per is not None and per < best_per` (lines 86-95).  `math.inf` is the
top element of `WithTop ℚ`; a cycle's outcome is the result of
`generate_samples`, whose `@ignore_exception` wrapper is modelled from
the spec below (its code, dp/decorators.py, is not part of src/). -/

/-- Modelled from the spec: the `ignore_exception` decorator of
`dp.decorators` (not in src/) catches any exception raised inside
`Trainer.generate_samples`, logs it, and makes the call return no value
instead of propagating. -/
def ignore_exception (result : Except String ℚ) : Option ℚ :=
  match result with
  | Except.ok per => some per
  | Except.error _ => none

/-- One generate-step cycle of `Trainer.train` (src/dp/trainer.py:86-95):
whether the best-model checkpoints are saved this cycle, and the value of
`best_per` afterwards.  The source never assigns `best_per` after its
initialisation, so the state is returned unchanged. -/
def genStep (best_per : WithTop ℚ) (result : Except String ℚ) :
    Bool × WithTop ℚ :=
  match ignore_exception result with
  | none => (false, best_per)
  | some per => (decide ((per : WithTop ℚ) < best_per), best_per)

/-- The sequence of best-checkpoint saves over the generate-step cycles of
a run, starting from `best_per = math.inf` (src/dp/trainer.py:53). -/
def trainGenLoop (cycles : List (Except String ℚ)) : List Bool :=
  (cycles.foldl
    (fun acc result =>
      let st := genStep acc.2 result
      (acc.1 ++ [st.1], st.2))
    (([], ⊤) : List Bool × WithTop ℚ)).1

/-- Modelled from the spec: the promotion rule as the spec states it —
save exactly when the new aggregate phoneme error rate is strictly less
than the best seen at any earlier cycle, and remember it as the new
best. -/
def specGenLoop (cycles : List (Except String ℚ)) : List Bool :=
  (cycles.foldl
    (fun acc result =>
      match ignore_exception result with
      | none => (acc.1 ++ [false], acc.2)
      | some per =>
        if (per : WithTop ℚ) < acc.2 then (acc.1 ++ [true], (per : WithTop ℚ))
        else (acc.1 ++ [false], acc.2))
    (([], ⊤) : List Bool × WithTop ℚ)).1

/-! ## Helper lemmas: deduplication decoder -/

theorem unique_consecutive_cons_eq (x : ℕ) (xs : List ℕ) :
    unique_consecutive (x :: xs)
      = match unique_consecutive xs with
        | [] => [(x, 1)]
        | (y, c) :: rest =>
          if x = y then (x, c + 1) :: rest else (x, 1) :: (y, c) :: rest := rfl

theorem unique_consecutive_length_le (l : List ℕ) :
    (unique_consecutive l).length ≤ l.length := by
  induction l with
  | nil => simp [unique_consecutive]
  | cons x xs ih =>
    rw [unique_consecutive_cons_eq]
    cases h : unique_consecutive xs with
    | nil => simp
    | cons hd rest =>
      rw [h] at ih
      obtain ⟨y, c⟩ := hd
      by_cases hxy : x = y
      · simp only [List.length_cons] at *
        simp [hxy]
        omega
      · simp only [if_neg hxy, List.length_cons] at *
        omega

theorem unique_consecutive_cons (x : ℕ) (xs : List ℕ) :
    ∃ c rest, unique_consecutive (x :: xs) = (x, c) :: rest := by
  rw [unique_consecutive_cons_eq]
  cases h : unique_consecutive xs with
  | nil => exact ⟨1, [], rfl⟩
  | cons hd rest =>
    obtain ⟨y, c⟩ := hd
    by_cases hxy : x = y
    · exact ⟨c + 1, rest, by simp [hxy]⟩
    · exact ⟨1, (y, c) :: rest, by simp [hxy]⟩

theorem unique_consecutive_length_eq (l : List ℕ)
    (h : (unique_consecutive l).length = l.length) :
    l.Chain' (fun a b => a ≠ b) := by
  induction l with
  | nil => simp
  | cons x xs ih =>
    cases xs with
    | nil => simp
    | cons x' xs' =>
      obtain ⟨c, rest, hx'⟩ := unique_consecutive_cons x' xs'
      have hle := unique_consecutive_length_le (x' :: xs')
      by_cases hxy : x = x'
      · exfalso
        have h1 : unique_consecutive (x :: x' :: xs') = (x, c + 1) :: rest := by
          rw [unique_consecutive_cons_eq, hx']
          simp [hxy]
        rw [h1] at h
        rw [hx'] at hle
        simp only [List.length_cons] at h hle
        omega
      · have h1 : unique_consecutive (x :: x' :: xs')
            = (x, 1) :: (x', c) :: rest := by
          rw [unique_consecutive_cons_eq, hx']
          simp [hxy]
        rw [h1] at h
        have heq : (unique_consecutive (x' :: xs')).length
            = (x' :: xs').length := by
          rw [hx']
          simp only [List.length_cons] at h ⊢
          omega
        exact List.chain'_cons.mpr ⟨hxy, ih heq⟩

theorem unique_consecutive_map_snd (l : List (ℚ × ℕ)) :
    unique_consecutive (l.map Prod.snd)
      = (rle l).map (fun g => (g.1, g.2.length)) := by
  induction l with
  | nil => rfl
  | cons f fs ih =>
    obtain ⟨p, t⟩ := f
    simp only [List.map_cons, unique_consecutive, rle, ih]
    cases h : rle fs with
    | nil => simp [h]
    | cons g rest =>
      obtain ⟨t', ps⟩ := g
      simp only [List.map_cons]
      by_cases ht : t = t' <;> simp [ht]

theorem rle_flatten (l : List (ℚ × ℕ)) :
    ((rle l).map (fun g => g.2)).flatten = l.map Prod.fst := by
  induction l with
  | nil => rfl
  | cons f fs ih =>
    obtain ⟨p, t⟩ := f
    simp only [List.map_cons, rle]
    cases h : rle fs with
    | nil =>
      rw [h] at ih
      simp only [List.map_nil, List.flatten_nil] at ih
      simp [← ih]
    | cons g rest =>
      obtain ⟨t', ps⟩ := g
      rw [h] at ih
      by_cases ht : t = t' <;> simp_all

theorem sliceMax_flatten (gs : List (List ℚ)) :
    sliceMax gs.flatten (gs.map List.length) = gs.map listMax := by
  induction gs with
  | nil => rfl
  | cons g rest ih =>
    simp only [List.flatten_cons, List.map_cons, sliceMax]
    rw [List.take_left, List.drop_left, ih]

theorem sliceMax_length (ml : List ℚ) (cs : List ℕ) :
    (sliceMax ml cs).length = cs.length := by
  induction cs generalizing ml with
  | nil => rfl
  | cons c cs ih => simp [sliceMax, ih]

theorem getD_map' {α β : Type} (f : α → β) (l : List α) (i : ℕ) (d : α) :
    (l.map f).getD i (f d) = f (l.getD i d) := by
  simp [List.getD_eq_getElem?_getD, List.getElem?_map, Option.getD_map]

theorem probs_length_eq_tokens_length (frames : List (ℚ × ℕ)) :
    (get_dedup_tokens_elem frames).2.length
      = (get_dedup_tokens_elem frames).1.length := by
  simp [get_dedup_tokens_elem, sliceMax_length]

/-! ## Helper lemmas: trainer generate-step loop -/

theorem genStep_snd (best : WithTop ℚ) (r : Except String ℚ) :
    (genStep best r).2 = best := by
  cases r <;> rfl

theorem trainGenLoop_aux (cycles : List (Except String ℚ))
    (acc : List Bool) (best : WithTop ℚ) :
    (cycles.foldl
      (fun acc result =>
        let st := genStep acc.2 result
        (acc.1 ++ [st.1], st.2)) (acc, best)).1
      = acc ++ cycles.map (fun r => (genStep best r).1) := by
  induction cycles generalizing acc with
  | nil => simp
  | cons c cs ih =>
    simp only [List.foldl_cons, List.map_cons]
    rw [genStep_snd]
    rw [ih (acc ++ [(genStep best c).1])]
    simp

theorem trainGenLoop_map (cycles : List (Except String ℚ)) :
    trainGenLoop cycles = cycles.map (fun r => (genStep ⊤ r).1) := by
  simpa using trainGenLoop_aux cycles [] ⊤

/-! ## Helper lemmas: dictionaries and the tokenizer constructor -/

theorem dictInsert_fresh {κ α : Type} [BEq κ] [LawfulBEq κ]
    (d : List (κ × α)) (k : κ) (v : α) (h : k ∉ d.map Prod.fst) :
    dictInsert d k v = d ++ [(k, v)] := by
  unfold dictInsert
  rw [if_neg]
  simp only [List.any_eq_true, beq_iff_eq, not_exists]
  intro p hp
  exact h (hp.2 ▸ List.mem_map_of_mem Prod.fst hp.1)

theorem foldl_dictInsert_fresh (ts : List String) (d : List (String × ℕ))
    (hfresh : ∀ t ∈ ts, t ∉ d.map Prod.fst) (hnd : ts.Nodup) :
    ts.foldl (fun d s => dictInsert d s d.length) d
      = d ++ ts.zip (List.range' d.length ts.length) := by
  induction ts generalizing d with
  | nil => simp
  | cons t ts ih =>
    simp only [List.foldl_cons, List.length_cons]
    rw [dictInsert_fresh d t d.length (hfresh t (by simp))]
    rw [ih (d ++ [(t, d.length)])]
    · simp only [List.length_append, List.length_cons, List.length_nil,
        List.range'_succ, List.zip_cons_cons, List.append_assoc,
        List.cons_append, List.nil_append]
    · intro u hu
      simp only [List.map_append, List.mem_append, List.map_cons,
        List.map_nil, List.mem_cons, List.not_mem_nil]
      rintro (h1 | h2)
      · exact hfresh u (List.mem_cons_of_mem t hu) h1
      · rcases h2 with h2 | h2
        · exact (List.nodup_cons.mp hnd).1 (h2 ▸ hu)
        · exact h2
    · exact (List.nodup_cons.mp hnd).2

theorem invertDict_aux (d : List (String × ℕ)) (acc : List (ℕ × String))
    (hnd : (d.map Prod.snd).Nodup)
    (hfresh : ∀ p ∈ d, p.2 ∉ acc.map Prod.fst) :
    d.foldl (fun acc p => dictInsert acc p.2 p.1) acc
      = acc ++ d.map (fun p => (p.2, p.1)) := by
  induction d generalizing acc with
  | nil => simp
  | cons q qs ih =>
    simp only [List.foldl_cons, List.map_cons]
    rw [dictInsert_fresh acc q.2 q.1 (hfresh q (by simp))]
    rw [ih (acc ++ [(q.2, q.1)])]
    · simp
    · exact (List.nodup_cons.mp (by simpa using hnd)).2
    · intro p hp
      simp only [List.map_append, List.mem_append, List.map_cons,
        List.map_nil, List.mem_cons, List.not_mem_nil]
      rintro (h1 | h2)
      · exact hfresh p (List.mem_cons_of_mem q hp) h1
      · rcases h2 with h2 | h2
        · exact (List.nodup_cons.mp (by simpa using hnd)).1
            (h2 ▸ List.mem_map_of_mem Prod.snd hp)
        · exact h2

theorem invertDict_eq (d : List (String × ℕ))
    (hnd : (d.map Prod.snd).Nodup) :
    invertDict d = d.map (fun p => (p.2, p.1)) := by
  simpa using invertDict_aux d [] hnd (by simp)

theorem dictFind?_eq_some_of_mem {κ α : Type} [BEq κ] [LawfulBEq κ]
    (d : List (κ × α)) (k : κ) (v : α)
    (hnd : (d.map Prod.fst).Nodup) (hmem : (k, v) ∈ d) :
    dictFind? d k = some v := by
  induction d with
  | nil => simp at hmem
  | cons q qs ih =>
    simp only [List.map_cons, List.nodup_cons] at hnd
    rcases List.mem_cons.mp hmem with h | h
    · unfold dictFind?
      rw [← h]
      simp [List.find?_cons_of_pos]
    · have hk : q.1 ≠ k := by
        intro he
        exact hnd.1 (he ▸ List.mem_map_of_mem Prod.fst h)
      unfold dictFind?
      rw [List.find?_cons_of_neg _ (by simpa using hk)]
      exact ih hnd.2 h

theorem dictFind?_append_left {κ α : Type} [BEq κ] [LawfulBEq κ]
    (d₁ d₂ : List (κ × α)) (k : κ) (h : k ∉ d₁.map Prod.fst) :
    dictFind? (d₁ ++ d₂) k = dictFind? d₂ k := by
  unfold dictFind?
  rw [List.find?_append]
  have hnone : d₁.find? (fun p => p.1 == k) = none := by
    rw [List.find?_eq_none]
    intro p hp
    simp only [beq_iff_eq]
    intro he
    exact h (he ▸ List.mem_map_of_mem Prod.fst hp)
  rw [hnone]
  rfl

theorem dictFind?_eq_none_of_not_mem {κ α : Type} [BEq κ] [LawfulBEq κ]
    (d : List (κ × α)) (k : κ) (h : k ∉ d.map Prod.fst) :
    dictFind? d k = none := by
  unfold dictFind?
  rw [List.find?_eq_none.mpr]
  · rfl
  · intro p hp
    simp only [beq_iff_eq]
    intro he
    exact h (he ▸ List.mem_map_of_mem Prod.fst hp)

theorem filterMap_filter_isSome {α β : Type} (f : α → Option β) (l : List α) :
    (l.filter (fun a => (f a).isSome)).filterMap f = l.filterMap f := by
  induction l with
  | nil => rfl
  | cons a as ih =>
    cases hf : f a with
    | none => simp [List.filter_cons, List.filterMap_cons, hf, ih]
    | some b => simp [List.filter_cons, List.filterMap_cons, hf, ih]

theorem map_filter_comp {α β : Type} (f : α → β) (p : β → Bool) (l : List α) :
    (l.filter (fun a => p (f a))).map f = (l.map f).filter p := by
  induction l with
  | nil => rfl
  | cons a as ih => by_cases hp : p (f a) <;> simp [List.filter_cons, hp, ih]

theorem keys_dictInsert_overwrite {κ α : Type} [BEq κ] [LawfulBEq κ]
    (d : List (κ × α)) (k : κ) (v : α) :
    (dictInsert d k v).map Prod.fst = d.map Prod.fst
      ∨ (dictInsert d k v).map Prod.fst = d.map Prod.fst ++ [k] := by
  unfold dictInsert
  by_cases h : d.any (fun p => p.1 == k)
  · left
    rw [if_pos h, List.map_map]
    apply List.map_congr_left
    intro p _
    by_cases hp : p.1 == k <;> simp [hp]
  · right
    rw [if_neg h]
    simp

theorem mem_keys_dictInsert_self {κ α : Type} [BEq κ] [LawfulBEq κ]
    (d : List (κ × α)) (k : κ) (v : α) :
    k ∈ (dictInsert d k v).map Prod.fst := by
  unfold dictInsert
  by_cases h : d.any (fun p => p.1 == k)
  · rw [if_pos h]
    have hkeys : (d.map (fun p => if p.1 == k then (p.1, v) else p)).map
        Prod.fst = d.map Prod.fst := by
      rw [List.map_map]
      apply List.map_congr_left
      intro p _
      by_cases hb : p.1 == k <;> simp [hb]
    rw [hkeys]
    simp only [List.any_eq_true, beq_iff_eq] at h
    obtain ⟨p, hp, hpk⟩ := h
    exact hpk ▸ List.mem_map_of_mem Prod.fst hp
  · rw [if_neg h]
    simp

theorem mem_keys_dictInsert_of_mem {κ α : Type} [BEq κ] [LawfulBEq κ]
    (d : List (κ × α)) (k k' : κ) (v : α)
    (h : k' ∈ d.map Prod.fst) :
    k' ∈ (dictInsert d k v).map Prod.fst := by
  rcases keys_dictInsert_overwrite d k v with hk | hk <;> rw [hk] <;>
    simp [h]

theorem mem_keys_foldl_of_mem (ts : List String) (d : List (String × ℕ))
    (k : String) (h : k ∈ d.map Prod.fst) :
    k ∈ (ts.foldl (fun d s => dictInsert d s d.length) d).map Prod.fst := by
  induction ts generalizing d with
  | nil => exact h
  | cons t ts ih =>
    exact ih _ (mem_keys_dictInsert_of_mem d t k d.length h)

theorem mem_keys_foldl_self (ts : List String) (d : List (String × ℕ))
    (s : String) (hs : s ∈ ts) :
    s ∈ (ts.foldl (fun d s => dictInsert d s d.length) d).map Prod.fst := by
  induction ts generalizing d with
  | nil => simp at hs
  | cons t ts ih =>
    rcases List.mem_cons.mp hs with h | h
    · subst h
      exact mem_keys_foldl_of_mem ts _ s (mem_keys_dictInsert_self d s d.length)
    · exact ih _ h

theorem init_token_to_idx (symbols languages : List String) (lc ase : Bool)
    (pad_token end_token : String) :
    (SequenceTokenizer.init symbols languages lc ase pad_token
        end_token).token_to_idx
      = ((pad_token :: languages.map (fun lang => "<" ++ lang ++ ">")
            ++ [end_token]) ++ symbols).foldl
          (fun d s => dictInsert d s d.length) [] := by
  simp only [SequenceTokenizer.init]
  simp only [List.foldl_append, List.cons_append, List.foldl_cons,
    List.foldl_nil, List.foldl_map]
  rfl

theorem foldl_dictInsert_nil (ts : List String) (hnd : ts.Nodup) :
    ts.foldl (fun d s => dictInsert d s d.length) []
      = ts.zip (List.range' 0 ts.length) := by
  simpa using foldl_dictInsert_fresh ts [] (by simp) hnd

theorem allTokens_nodup_parts (symbols languages : List String)
    (hnd : (allTokens symbols languages).Nodup) :
    ("_" :: languages.map (fun lang => "<" ++ lang ++ ">") ++ ["<end>"]).Nodup ∧
    symbols.Nodup ∧
    (∀ s ∈ symbols,
      s ∉ "_" :: languages.map (fun lang => "<" ++ lang ++ ">") ++ ["<end>"]) := by
  rw [allTokens, List.nodup_append] at hnd
  exact ⟨hnd.1, hnd.2.1, fun s hs hmem => hnd.2.2 hmem hs⟩

theorem init_token_to_idx_zip (symbols languages : List String) (lc ase : Bool)
    (hnd : (allTokens symbols languages).Nodup) :
    (SequenceTokenizer.init symbols languages lc ase "_" "<end>").token_to_idx
      = (allTokens symbols languages).zip
          (List.range' 0 (allTokens symbols languages).length) := by
  rw [init_token_to_idx]
  exact foldl_dictInsert_nil _ hnd

theorem init_keys (symbols languages : List String) (lc ase : Bool)
    (hnd : (allTokens symbols languages).Nodup) :
    (SequenceTokenizer.init symbols languages lc ase "_"
        "<end>").token_to_idx.map Prod.fst
      = allTokens symbols languages := by
  rw [init_token_to_idx_zip symbols languages lc ase hnd]
  exact List.map_fst_zip _ _ (by simp [List.length_range'])

theorem init_idx_to_token (symbols languages : List String) (lc ase : Bool)
    (hnd : (allTokens symbols languages).Nodup) :
    (SequenceTokenizer.init symbols languages lc ase "_" "<end>").idx_to_token
      = (SequenceTokenizer.init symbols languages lc ase "_"
          "<end>").token_to_idx.map (fun p => (p.2, p.1)) := by
  have hv : ((SequenceTokenizer.init symbols languages lc ase "_"
      "<end>").token_to_idx.map Prod.snd).Nodup := by
    rw [init_token_to_idx_zip symbols languages lc ase hnd]
    rw [List.map_snd_zip _ _ (by simp [List.length_range'])]
    exact List.nodup_range' _ _
  exact invertDict_eq _ hv

theorem init_vocab_size (symbols languages : List String) (lc ase : Bool)
    (hnd : (allTokens symbols languages).Nodup) :
    (SequenceTokenizer.init symbols languages lc ase "_" "<end>").vocab_size
      = (allTokens symbols languages).length := by
  have h : (SequenceTokenizer.init symbols languages lc ase "_"
      "<end>").vocab_size
      = (SequenceTokenizer.init symbols languages lc ase "_"
          "<end>").idx_to_token.length := rfl
  rw [h, init_idx_to_token symbols languages lc ase hnd, List.length_map,
    init_token_to_idx_zip symbols languages lc ase hnd]
  simp [List.length_zip, List.length_range']

theorem init_end (symbols languages : List String) (lc ase : Bool)
    (hnd : (allTokens symbols languages).Nodup) :
    (SequenceTokenizer.init symbols languages lc ase "_" "<end>").end_index
      = 1 + languages.length ∧
    ("<end>", 1 + languages.length)
      ∈ (SequenceTokenizer.init symbols languages lc ase "_"
          "<end>").token_to_idx := by
  obtain ⟨hpre, hsym, hdisj⟩ := allTokens_nodup_parts symbols languages hnd
  have hpad : "_" ∉ languages.map (fun lang => "<" ++ lang ++ ">")
      ++ ["<end>"] := (List.nodup_cons.mp hpre).1
  have hrest : (languages.map (fun lang => "<" ++ lang ++ ">")
      ++ ["<end>"]).Nodup := (List.nodup_cons.mp hpre).2
  have hlt : (languages.map (fun lang => "<" ++ lang ++ ">")).Nodup :=
    (List.nodup_append.mp hrest).1
  have hendlt : "<end>" ∉ languages.map (fun lang => "<" ++ lang ++ ">") := by
    intro hmem
    exact (List.nodup_append.mp hrest).2.2 hmem (by simp)
  -- the dict after the language loop
  have hd2 : languages.foldl
        (fun d lang => dictInsert d ("<" ++ lang ++ ">") d.length) [("_", 0)]
      = [("_", 0)] ++ (languages.map (fun lang => "<" ++ lang ++ ">")).zip
          (List.range' 1 languages.length) := by
    have hfr : ∀ t ∈ languages.map (fun lang => "<" ++ lang ++ ">"),
        t ∉ ([(("_" : String), (0 : ℕ))]).map Prod.fst := by
      intro t ht
      simp only [List.map_cons, List.map_nil, List.mem_singleton]
      intro he
      exact hpad (List.mem_append_left _ (he ▸ ht))
    have := foldl_dictInsert_fresh
      (languages.map (fun lang => "<" ++ lang ++ ">")) [("_", 0)] hfr hlt
    simpa [List.foldl_map] using this
  have hkeys2 : ([(("_" : String), (0 : ℕ))]
        ++ (languages.map (fun lang => "<" ++ lang ++ ">")).zip
          (List.range' 1 languages.length)).map Prod.fst
      = "_" :: languages.map (fun lang => "<" ++ lang ++ ">") := by
    rw [List.map_append,
      List.map_fst_zip _ _ (by simp [List.length_range'])]
    rfl
  have hlen2 : ([(("_" : String), (0 : ℕ))]
        ++ (languages.map (fun lang => "<" ++ lang ++ ">")).zip
          (List.range' 1 languages.length)).length = 1 + languages.length := by
    simp [List.length_zip, List.length_range']
    omega
  have hendfresh : "<end>" ∉ ([(("_" : String), (0 : ℕ))]
        ++ (languages.map (fun lang => "<" ++ lang ++ ">")).zip
          (List.range' 1 languages.length)).map Prod.fst := by
    rw [hkeys2]
    intro hmem
    rcases List.mem_cons.mp hmem with h | h
    · exact absurd h.symm (by simp)
    · exact hendlt h
  have hd3 : dictInsert ([(("_" : String), (0 : ℕ))]
        ++ (languages.map (fun lang => "<" ++ lang ++ ">")).zip
          (List.range' 1 languages.length)) "<end>"
        ([(("_" : String), (0 : ℕ))]
          ++ (languages.map (fun lang => "<" ++ lang ++ ">")).zip
            (List.range' 1 languages.length)).length
      = ([(("_" : String), (0 : ℕ))]
          ++ (languages.map (fun lang => "<" ++ lang ++ ">")).zip
            (List.range' 1 languages.length)) ++ [("<end>", 1 + languages.length)] := by
    rw [dictInsert_fresh _ _ _ hendfresh, hlen2]
  constructor
  · simp only [SequenceTokenizer.init]
    rw [hd2, hd3]
    unfold dictGetD
    rw [dictFind?_append_left _ _ _ hendfresh]
    simp [dictFind?]
  · simp only [SequenceTokenizer.init]
    rw [hd2, hd3]
    have hfr4 : ∀ t ∈ symbols,
        t ∉ (([(("_" : String), (0 : ℕ))]
          ++ (languages.map (fun lang => "<" ++ lang ++ ">")).zip
            (List.range' 1 languages.length))
          ++ [("<end>", 1 + languages.length)]).map Prod.fst := by
      intro t ht
      rw [List.map_append, hkeys2]
      intro hmem
      apply hdisj t ht
      rcases List.mem_append.mp hmem with h | h
      · rcases List.mem_cons.mp h with h1 | h1
        · exact h1 ▸ List.mem_cons_self _ _
        · exact List.mem_cons_of_mem _ (List.mem_append_left _ h1)
      · simp only [List.map_cons, List.map_nil, List.mem_singleton] at h
        exact h ▸ List.mem_cons_of_mem _ (List.mem_append_right _ (by simp))
    rw [foldl_dictInsert_fresh symbols _ hfr4 hsym]
    apply List.mem_append_left
    apply List.mem_append_right
    simp


theorem mem_zip_range' (ts : List String) (a : ℕ) (s : String) (hs : s ∈ ts) :
    ∃ v, (s, v) ∈ ts.zip (List.range' a ts.length) := by
  induction ts generalizing a with
  | nil => simp at hs
  | cons t ts ih =>
    rw [List.length_cons, List.range'_succ, List.zip_cons_cons]
    rcases List.mem_cons.mp hs with h | h
    · exact ⟨a, by simp [h]⟩
    · obtain ⟨v, hv⟩ := ih (a + 1) h
      exact ⟨v, List.mem_cons_of_mem _ hv⟩

theorem init_roundtrip (symbols languages : List String) (lc ase : Bool)
    (hnd : (allTokens symbols languages).Nodup) (s : String)
    (hs : s ∈ allTokens symbols languages) :
    ∃ v, dictFind? (SequenceTokenizer.init symbols languages lc ase "_"
        "<end>").token_to_idx s = some v ∧
      dictFind? (SequenceTokenizer.init symbols languages lc ase "_"
        "<end>").idx_to_token v = some s := by
  have hzip := init_token_to_idx_zip symbols languages lc ase hnd
  obtain ⟨v, hv⟩ := mem_zip_range' (allTokens symbols languages) 0 s hs
  refine ⟨v, ?_, ?_⟩
  · rw [hzip]
    apply dictFind?_eq_some_of_mem _ s v _ hv
    rw [List.map_fst_zip _ _ (by simp [List.length_range'])]
    exact hnd
  · rw [init_idx_to_token symbols languages lc ase hnd]
    apply dictFind?_eq_some_of_mem
    · have hc : (Prod.fst ∘ fun p : String × ℕ => (p.2, p.1)) = Prod.snd := rfl
      rw [List.map_map, hc, hzip,
        List.map_snd_zip _ _ (by simp [List.length_range'])]
      exact List.nodup_range' _ _
    · rw [hzip]
      exact List.mem_map_of_mem _ hv

theorem init_end_decode (symbols languages : List String) (lc ase : Bool)
    (hnd : (allTokens symbols languages).Nodup) :
    dictFind? (SequenceTokenizer.init symbols languages lc ase "_"
        "<end>").idx_to_token
      (SequenceTokenizer.init symbols languages lc ase "_" "<end>").end_index
      = some "<end>" := by
  obtain ⟨he1, he2⟩ := init_end symbols languages lc ase hnd
  rw [he1, init_idx_to_token symbols languages lc ase hnd]
  apply dictFind?_eq_some_of_mem
  · have hc : (Prod.fst ∘ fun p : String × ℕ => (p.2, p.1)) = Prod.snd := rfl
    rw [List.map_map, hc, init_token_to_idx_zip symbols languages lc ase hnd,
      List.map_snd_zip _ _ (by simp [List.length_range'])]
    exact List.nodup_range' _ _
  · exact List.mem_map_of_mem _ he2


/-! ## Claim theorems -/

/-- C1, counterexample: on the arg-max class sequence `[0,0,3,3,5,0,5]`
with probabilities `[1/2,1/2,0.6,0.9,0.7,1/2,0.8]`, the code does NOT
return tokens `[3,5,5]` with confidences `[0.9,0.7,0.8]` as the claim
states: the blank timesteps are removed before the consecutive collapse,
so the two runs of class 5 are merged. -/
theorem C1_counterexample :
    get_dedup_tokens_elem
      [((1 : ℚ)/2, 0), (1/2, 0), (0.6, 3), (0.9, 3), (0.7, 5), (1/2, 0),
        (0.8, 5)]
      ≠ ([3, 5, 5], [0.9, 0.7, 0.8]) := by decide

/-- C1, amended: for a batch element whose per-timestep arg-max class
sequence is `[0,0,3,3,5,0,5]` with arg-max probabilities
`[_,_,0.6,0.9,0.7,_,0.8]` (blank probabilities arbitrary), the output is
tokens `[3,5]` with confidences `[0.9,0.8]`: blanks are discarded before
the consecutive-run collapse, so the two runs of class 5 separated only
by a blank timestep ARE merged into one token. -/
theorem C1_amended (p₁ p₂ p₃ : ℚ) :
    get_dedup_tokens_elem
      [(p₁, 0), (p₂, 0), (0.6, 3), (0.9, 3), (0.7, 5), (p₃, 0), (0.8, 5)]
      = ([3, 5], [0.9, 0.8]) := by
  have hk : List.filter (fun f => f.2 != 0)
      [(p₁, 0), (p₂, 0), ((0.6 : ℚ), 3), (0.9, 3), (0.7, 5), (p₃, 0),
        (0.8, 5)]
      = [((0.6 : ℚ), 3), (0.9, 3), (0.7, 5), (0.8, 5)] := by
    simp [List.filter]
  simp only [get_dedup_tokens_elem, hk]
  norm_num [unique_consecutive, sliceMax, listMax, max_def]

/-- C2, code bug: `Trainer.train` never updates `best_per` after
initialising it to `math.inf`, so on a run whose generate cycles report
phoneme error rates 1 and then 2 the code saves the best-model
checkpoints at BOTH cycles (`trainGenLoop`), although the second rate is
worse than the first; the promotion rule the spec states (`specGenLoop`,
save only on strict improvement over the best seen so far) saves only at
the first cycle. -/
theorem C2_code_bug :
    trainGenLoop [Except.ok 1, Except.ok 2] = [true, true] ∧
    specGenLoop [Except.ok 1, Except.ok 2] = [true, false] := by
  constructor <;> rfl

/-- C5: an exception raised inside `Trainer.generate_samples` is caught
by its `ignore_exception` wrapper (modelled from the spec), the cycle
yields no value, no best-checkpoint save happens that cycle, and the
training loop continues with the remaining cycles unchanged. -/
theorem C5_generate_exception_caught (xs ys : List (Except String ℚ))
    (e : String) :
    ignore_exception (Except.error e) = none ∧
    trainGenLoop (xs ++ Except.error e :: ys)
      = trainGenLoop xs ++ false :: trainGenLoop ys := by
  refine ⟨rfl, ?_⟩
  simp [trainGenLoop_map, genStep, ignore_exception]

/-- C6: for every batch element, the collapsed output token sequence is
no longer than the input timestep sequence, and equality forces both that
no timestep has the blank arg-max class 0 and that no two consecutive
timesteps share the same arg-max class. -/
theorem C6_dedup_length (frames : List (ℚ × ℕ)) :
    (get_dedup_tokens_elem frames).1.length ≤ frames.length ∧
    ((get_dedup_tokens_elem frames).1.length = frames.length →
      (∀ f ∈ frames, f.2 ≠ 0) ∧
      frames.Chain' (fun a b => a.2 ≠ b.2)) := by
  have hlen : (get_dedup_tokens_elem frames).1.length
      = (unique_consecutive
          ((frames.filter (fun f => f.2 != 0)).map Prod.snd)).length := by
    simp [get_dedup_tokens_elem]
  have h1 := unique_consecutive_length_le
    ((frames.filter (fun f => f.2 != 0)).map Prod.snd)
  have h2 : ((frames.filter (fun f => f.2 != 0)).map Prod.snd).length
      ≤ frames.length := by
    simp only [List.length_map]
    exact List.length_filter_le _ _
  constructor
  · omega
  · intro heq
    have hkeep : (frames.filter (fun f => f.2 != 0)).length = frames.length := by
      simp only [List.length_map] at h1 h2
      omega
    have hself : frames.filter (fun f => f.2 != 0) = frames :=
      (List.filter_sublist frames).eq_of_length hkeep
    have hall : ∀ f ∈ frames, f.2 ≠ 0 := by
      intro f hf
      have := List.filter_eq_self.mp hself f hf
      simpa using this
    refine ⟨hall, ?_⟩
    rw [hself] at hlen
    rw [hlen] at heq
    have huc : (unique_consecutive (frames.map Prod.snd)).length
        = (frames.map Prod.snd).length := by
      simp only [List.length_map]
      exact heq
    have := unique_consecutive_length_eq (frames.map Prod.snd) huc
    exact (List.chain'_map Prod.snd).mp this

/-- C6, witness: the theorem applied to the two-frame input
`[(1/2,1),(1/3,2)]`, whose collapsed length equals the input length. -/
theorem C6_dedup_length_witness :
    (get_dedup_tokens_elem [((1 : ℚ)/2, 1), ((1 : ℚ)/3, 2)]).1.length ≤ 2 ∧
    (∀ f ∈ [((1 : ℚ)/2, 1), ((1 : ℚ)/3, 2)], f.2 ≠ 0) :=
  ⟨(C6_dedup_length [((1 : ℚ)/2, 1), ((1 : ℚ)/3, 2)]).1,
    ((C6_dedup_length [((1 : ℚ)/2, 1), ((1 : ℚ)/3, 2)]).2 (by decide)).1⟩

/-- C8: the confidence retained for each collapsed run is the maximum of
the per-timestep arg-max probabilities within that run
(`run_confidences_max`, the spec's step 5), and on the run
`[(0.6,3),(0.9,3)]` it differs from the mean (`run_confidences_mean`). -/
theorem C8_run_confidence_is_max :
    (∀ frames : List (ℚ × ℕ),
      (get_dedup_tokens_elem frames).2 = run_confidences_max frames) ∧
    (get_dedup_tokens_elem [((0.6 : ℚ), 3), (0.9, 3)]).2
      ≠ run_confidences_mean [((0.6 : ℚ), 3), (0.9, 3)] := by
  constructor
  · intro frames
    simp only [get_dedup_tokens_elem, run_confidences_max]
    rw [unique_consecutive_map_snd, List.map_map]
    rw [← rle_flatten (frames.filter (fun f => f.2 != 0))]
    have hc : ((rle (frames.filter (fun f => f.2 != 0))).map
          (Prod.snd ∘ fun g => (g.1, g.2.length)))
        = ((rle (frames.filter (fun f => f.2 != 0))).map (fun g => g.2)).map
            List.length := by
      simp [List.map_map, Function.comp]
    rw [hc, sliceMax_flatten, List.map_map]
    rfl
  · have hk : List.filter (fun f => f.2 != 0) [((0.6 : ℚ), 3), (0.9, 3)]
        = [((0.6 : ℚ), 3), (0.9, 3)] := by simp [List.filter]
    have h2 : (get_dedup_tokens_elem [((0.6 : ℚ), 3), (0.9, 3)]).2
        = [(0.9 : ℚ)] := by
      simp only [get_dedup_tokens_elem, hk]
      norm_num [unique_consecutive, sliceMax, listMax, max_def]
    have h3 : run_confidences_mean [((0.6 : ℚ), 3), (0.9, 3)]
        = [(3 : ℚ)/4] := by
      simp only [run_confidences_mean, hk]
      norm_num [rle]
    rw [h2, h3]
    simp only [ne_eq, List.cons.injEq, and_true]
    norm_num

/-- C9: a batch element whose every timestep has the blank arg-max class
0 collapses to the empty token and confidence sequences, and after batch
padding its rows are `0`-filled up to the maximum collapsed length of the
batch, in batch-first layout. -/
theorem C9_all_blank_empty_padded (batch : List (List (ℚ × ℕ))) (i : ℕ)
    (hi : i < batch.length)
    (hblank : ∀ f ∈ batch.getD i [], f.2 = 0) :
    get_dedup_tokens_elem (batch.getD i []) = ([], []) ∧
    (get_dedup_tokens batch).1.getD i []
      = List.replicate
          ((batch.map
            (fun b => (get_dedup_tokens_elem b).1.length)).foldl max 0) 0 ∧
    (get_dedup_tokens batch).2.getD i []
      = List.replicate
          ((batch.map
            (fun b => (get_dedup_tokens_elem b).1.length)).foldl max 0) 0 := by
  have hfilter : (batch.getD i []).filter (fun f => f.2 != 0) = [] := by
    rw [List.filter_eq_nil_iff]
    intro f hf
    simp [hblank f hf]
  have helem : get_dedup_tokens_elem (batch.getD i []) = ([], []) := by
    simp only [get_dedup_tokens_elem]
    rw [hfilter]
    rfl
  have hbi : batch.getD i [] = batch[i] := List.getD_eq_getElem batch [] hi
  rw [hbi] at helem
  have hM1 : (((batch.map get_dedup_tokens_elem).map Prod.fst).map List.length)
      = batch.map (fun b => (get_dedup_tokens_elem b).1.length) := by
    simp [List.map_map, Function.comp]
  have hM2 : (((batch.map get_dedup_tokens_elem).map Prod.snd).map List.length)
      = batch.map (fun b => (get_dedup_tokens_elem b).1.length) := by
    simp only [List.map_map]
    apply List.map_congr_left
    intro b _
    simpa [Function.comp] using probs_length_eq_tokens_length b
  refine ⟨by rw [hbi]; exact helem, ?_, ?_⟩
  · simp only [get_dedup_tokens, pad_sequence, hM1]
    rw [List.getD_eq_getElem _ _ (by simpa using hi)]
    rw [List.getElem_map, List.getElem_map, List.getElem_map]
    rw [helem]
    simp
  · simp only [get_dedup_tokens, pad_sequence, hM2]
    rw [List.getD_eq_getElem _ _ (by simpa using hi)]
    rw [List.getElem_map, List.getElem_map, List.getElem_map]
    rw [helem]
    simp

/-- C9, witness: the theorem applied to the batch
`[[(1/2,0)], [(1,2)]]` at the all-blank element 0. -/
theorem C9_all_blank_empty_padded_witness :
    get_dedup_tokens_elem ([[((1 : ℚ)/2, 0)], [((1 : ℚ), 2)]].getD 0 [])
      = ([], []) :=
  (C9_all_blank_empty_padded [[((1 : ℚ)/2, 0)], [((1 : ℚ), 2)]] 0
    (by decide) (by decide)).1

/-- C3, counterexample: with the default `lowercase=True`, the uppercase
symbol "A" is present in the vocabulary, yet
`decode(encode(["A"], lang), remove_special_tokens=True)` returns `[]`,
not `["A"]`: encode lowercases to "a", which is not a vocabulary key, and
drops it. -/
theorem C3_counterexample :
    (SequenceTokenizer.init ["A"] ["de"] true true "_" "<end>").decode
      ((SequenceTokenizer.init ["A"] ["de"] true true "_" "<end>").call
        ["A"] "de") true ≠ ["A"] := by decide

/-- C3, amended: decoding the encoding with the special tokens stripped
recovers the original sequence, provided the vocabulary tokens (pad,
per-language start tokens, end token, symbols) are pairwise distinct, the
language is known, every sequence symbol is a constructor symbol, and
each sequence symbol is unchanged by the encoder's optional lowercasing.
-/
theorem C3_amended (symbols languages : List String) (lc : Bool)
    (seq : List String) (lang : String)
    (hnd : (allTokens symbols languages).Nodup)
    (hlang : lang ∈ languages)
    (hseq : ∀ s ∈ seq, s ∈ symbols)
    (hlc : lc = true → ∀ s ∈ seq, pyLower s = s) :
    (SequenceTokenizer.init symbols languages lc true "_" "<end>").decode
      ((SequenceTokenizer.init symbols languages lc true "_" "<end>").call
        seq lang) true = seq := by
  have hsp : (SequenceTokenizer.init symbols languages lc true "_"
      "<end>").special_tokens
      = "_" :: languages.map (fun lang => "<" ++ lang ++ ">") ++ ["<end>"] := rfl
  -- the optional lowercasing leaves the sequence unchanged
  have hsent : (if (SequenceTokenizer.init symbols languages lc true "_"
      "<end>").lowercase then seq.map pyLower else seq) = seq := by
    cases lc with
    | false => rfl
    | true =>
      show seq.map pyLower = seq
      have h := hlc rfl
      calc seq.map pyLower = seq.map id := List.map_congr_left h
        _ = seq := List.map_id seq
  -- the start token round-trips and is special
  have hstart_mem : "<" ++ lang ++ ">" ∈ allTokens symbols languages := by
    apply List.mem_append_left
    exact List.mem_cons_of_mem _
      (List.mem_append_left _ (List.mem_map_of_mem _ hlang))
  obtain ⟨vs, hvs1, hvs2⟩ :=
    init_roundtrip symbols languages lc true hnd _ hstart_mem
  have hstart : (SequenceTokenizer.init symbols languages lc true "_"
      "<end>").get_start_index lang = vs := by
    unfold SequenceTokenizer.get_start_index dictGetD
    rw [hvs1]
    rfl
  have hstart_sp : ("<" ++ lang ++ ">") ∈ (SequenceTokenizer.init symbols
      languages lc true "_" "<end>").special_tokens := by
    rw [hsp]
    exact List.mem_cons_of_mem _
      (List.mem_append_left _ (List.mem_map_of_mem _ hlang))
  have hend2 := init_end_decode symbols languages lc true hnd
  have hend_sp : ("<end>" : String) ∈ (SequenceTokenizer.init symbols
      languages lc true "_" "<end>").special_tokens := by
    rw [hsp]
    exact List.mem_cons_of_mem _ (List.mem_append_right _ (by simp))
  -- each sequence symbol round-trips and is not special
  have hpoint : ∀ s ∈ seq, ∃ v,
      dictFind? (SequenceTokenizer.init symbols languages lc true "_"
        "<end>").token_to_idx s = some v ∧
      dictFind? (SequenceTokenizer.init symbols languages lc true "_"
        "<end>").idx_to_token v = some s ∧
      s ∉ (SequenceTokenizer.init symbols languages lc true "_"
        "<end>").special_tokens := by
    intro s hs
    have hsym := hseq s hs
    have hmem : s ∈ allTokens symbols languages := List.mem_append_right _ hsym
    obtain ⟨v, h1, h2⟩ := init_roundtrip symbols languages lc true hnd s hmem
    refine ⟨v, h1, h2, ?_⟩
    rw [hsp]
    exact (allTokens_nodup_parts symbols languages hnd).2.2 s hsym
  -- the body of the encoded sequence round-trips
  have hbody : ∀ (l : List String),
      (∀ s ∈ l, ∃ v,
        dictFind? (SequenceTokenizer.init symbols languages lc true "_"
          "<end>").token_to_idx s = some v ∧
        dictFind? (SequenceTokenizer.init symbols languages lc true "_"
          "<end>").idx_to_token v = some s ∧
        s ∉ (SequenceTokenizer.init symbols languages lc true "_"
          "<end>").special_tokens) →
      ((l.filterMap (fun c => dictFind? (SequenceTokenizer.init symbols
          languages lc true "_" "<end>").token_to_idx c)).filterMap
        (fun i => dictFind? (SequenceTokenizer.init symbols languages lc true
          "_" "<end>").idx_to_token i)).filter
          (fun d => !((SequenceTokenizer.init symbols languages lc true "_"
            "<end>").special_tokens.contains d)) = l := by
    intro l
    induction l with
    | nil => intro _; rfl
    | cons s ls ih =>
      intro hl
      obtain ⟨v, h1, h2, h3⟩ := hl s (List.mem_cons_self s ls)
      simp only [List.filterMap_cons, h1, h2, List.filter_cons]
      have hcont : ((SequenceTokenizer.init symbols languages lc true "_"
          "<end>").special_tokens.contains s) = false := by
        simp [List.elem_eq_mem, h3]
      rw [hcont]
      simp only [Bool.not_false, if_true]
      rw [ih (fun u hu => hl u (List.mem_cons_of_mem s hu))]
  -- assemble
  simp only [SequenceTokenizer.call, hsent]
  have hase : (SequenceTokenizer.init symbols languages lc true "_"
      "<end>").append_start_end = true := rfl
  rw [hase]
  simp only [if_true]
  simp only [SequenceTokenizer.decode, List.filterMap_cons, hstart, hvs2,
    List.filterMap_append, List.filterMap_cons, List.filterMap_nil, hend2]
  simp only [if_true, List.filter_cons, List.filter_append]
  have hc1 : ((SequenceTokenizer.init symbols languages lc true "_"
      "<end>").special_tokens.contains ("<" ++ lang ++ ">")) = true := by
    simp [List.elem_eq_mem, hstart_sp]
  have hc2 : ((SequenceTokenizer.init symbols languages lc true "_"
      "<end>").special_tokens.contains ("<end>" : String)) = true := by
    simp [List.elem_eq_mem, hend_sp]
  rw [hc1, hc2]
  simp only [Bool.not_true, if_false, List.filter_cons, List.filter_nil]
  rw [hbody seq hpoint]
  simp


/-- C3, witness: the amended theorem applied to the tokenizer over
symbols `["a","b"]` and language `"de"` on the sequence `["b","a"]`. -/
theorem C3_amended_witness :
    (SequenceTokenizer.init ["a", "b"] ["de"] true true "_" "<end>").decode
      ((SequenceTokenizer.init ["a", "b"] ["de"] true true "_" "<end>").call
        ["b", "a"] "de") true = ["b", "a"] :=
  C3_amended ["a", "b"] ["de"] true ["b", "a"] "de" (by decide) (by decide)
    (by decide) (fun _ => by decide)

/-- C4, counterexample: with the duplicate language list `["en","en"]`
and no symbols, the second insertion of the start token `<en>` reassigns
its index to the current dictionary size, the end token then collides
with it, and `vocab_size` is 2 instead of the claimed
`1 + |languages| + 1 + |symbols| = 4`. -/
theorem C4_counterexample :
    (SequenceTokenizer.init [] ["en", "en"] true true "_" "<end>").vocab_size
      ≠ 1 + (["en", "en"] : List String).length + 1
        + ([] : List String).length := by decide

/-- C4, amended: provided all vocabulary tokens (pad, per-language start
tokens, end token, symbols) are pairwise distinct, `vocab_size` equals
`1 (pad) + |languages| + 1 (end) + |symbols|` and `token_to_idx` assigns
the dense indices `0, 1, ...` in the order pad, per-language start
tokens, end token, then the symbols. -/
theorem C4_amended (symbols languages : List String) (lc ase : Bool)
    (hnd : (allTokens symbols languages).Nodup) :
    (SequenceTokenizer.init symbols languages lc ase "_" "<end>").vocab_size
      = 1 + languages.length + 1 + symbols.length ∧
    (SequenceTokenizer.init symbols languages lc ase "_" "<end>").token_to_idx
      = (allTokens symbols languages).zip
          (List.range (1 + languages.length + 1 + symbols.length)) := by
  have hlen : (allTokens symbols languages).length
      = 1 + languages.length + 1 + symbols.length := by
    simp [allTokens]
    omega
  constructor
  · rw [init_vocab_size symbols languages lc ase hnd, hlen]
  · rw [init_token_to_idx_zip symbols languages lc ase hnd, ← hlen,
      List.range_eq_range']

/-- C4, witness: the amended theorem applied to symbols `["a","b"]` and
languages `["de","en"]`, yielding vocabulary size 6. -/
theorem C4_amended_witness :
    (SequenceTokenizer.init ["a", "b"] ["de", "en"] true true "_"
        "<end>").vocab_size
      = 1 + (["de", "en"] : List String).length + 1
        + (["a", "b"] : List String).length :=
  (C4_amended ["a", "b"] ["de", "en"] true true (by decide)).1

/-- C7: encoding silently skips the symbols the tokenizer does not know:
for every tokenizer, encoding a sequence equals encoding the subsequence
kept by deleting each symbol whose (optionally lowercased) form is not a
vocabulary key; in particular encoding `["a","?","b"]` with vocabulary
`{a,b}` equals encoding `["a","b"]`. -/
theorem C7_encode_drops_unknown :
    (∀ (t : SequenceTokenizer) (sentence : List String) (language : String),
      t.call sentence language
        = t.call (sentence.filter (fun c =>
            (dictFind? t.token_to_idx
              (if t.lowercase then pyLower c else c)).isSome)) language) ∧
    (SequenceTokenizer.init ["a", "b"] ["de"] true true "_" "<end>").call
        ["a", "?", "b"] "de"
      = (SequenceTokenizer.init ["a", "b"] ["de"] true true "_" "<end>").call
        ["a", "b"] "de" := by
  constructor
  · intro t sentence language
    have hcore : ((if t.lowercase then sentence.map pyLower
          else sentence).filterMap (fun c => dictFind? t.token_to_idx c))
        = ((if t.lowercase then
              (sentence.filter (fun c =>
                (dictFind? t.token_to_idx
                  (if t.lowercase then pyLower c else c)).isSome)).map pyLower
            else
              sentence.filter (fun c =>
                (dictFind? t.token_to_idx
                  (if t.lowercase then pyLower c else c)).isSome)).filterMap
            (fun c => dictFind? t.token_to_idx c)) := by
      cases hlc : t.lowercase with
      | false =>
        simp only [Bool.false_eq_true, if_false]
        rw [filterMap_filter_isSome]
      | true =>
        simp only [if_true]
        have h1 : (sentence.filter (fun c =>
              (dictFind? t.token_to_idx (pyLower c)).isSome)).map pyLower
            = (sentence.map pyLower).filter
                (fun b => (dictFind? t.token_to_idx b).isSome) :=
          map_filter_comp pyLower
            (fun b => (dictFind? t.token_to_idx b).isSome) sentence
        rw [h1, filterMap_filter_isSome]
    simp only [SequenceTokenizer.call]
    rw [hcore]
  · decide

/-- C10, counterexample: with `lowercase=True` and both "A" and "a" among
the constructor symbols, "A" differs from its lowercased form and
occupies a vocabulary index, yet it is NOT dropped by encode: the
occurrence is mapped to the index of "a". -/
theorem C10_counterexample :
    "A" ∈ (SequenceTokenizer.init ["A", "a"] ["de"] true true "_"
        "<end>").token_to_idx.map Prod.fst ∧
    pyLower "A" ≠ "A" ∧
    (SequenceTokenizer.init ["A", "a"] ["de"] true true "_" "<end>").call
        ["A"] "de"
      ≠ (SequenceTokenizer.init ["A", "a"] ["de"] true true "_" "<end>").call
        [] "de" := by decide

/-- C10, amended: with `lowercase=True`, a constructor symbol is stored
in the vocabulary exactly as given and occupies an index; if it differs
from its lowercased form AND that lowercased form is not itself a
vocabulary key, every encode call silently drops each of its
occurrences. -/
theorem C10_amended (symbols languages : List String) (ase : Bool)
    (s : String) (hs : s ∈ symbols) (hlow : pyLower s ≠ s)
    (habs : pyLower s ∉ (SequenceTokenizer.init symbols languages true ase
        "_" "<end>").token_to_idx.map Prod.fst) :
    s ∈ (SequenceTokenizer.init symbols languages true ase "_"
        "<end>").token_to_idx.map Prod.fst ∧
    ∀ (pre post : List String) (language : String),
      (SequenceTokenizer.init symbols languages true ase "_" "<end>").call
          (pre ++ s :: post) language
        = (SequenceTokenizer.init symbols languages true ase "_"
            "<end>").call (pre ++ post) language := by
  constructor
  · rw [init_token_to_idx]
    apply mem_keys_foldl_self
    exact List.mem_append_right _ hs
  · intro pre post language
    have hnone : dictFind? (SequenceTokenizer.init symbols languages true ase
        "_" "<end>").token_to_idx (pyLower s) = none :=
      dictFind?_eq_none_of_not_mem _ _ habs
    simp only [SequenceTokenizer.call]
    have hlc : (SequenceTokenizer.init symbols languages true ase "_"
        "<end>").lowercase = true := rfl
    rw [hlc]
    simp only [if_true, List.map_append, List.map_cons,
      List.filterMap_append, List.filterMap_cons, hnone]

/-- C10, witness: the amended theorem applied to the tokenizer over the
single symbol "A": "A" occupies an index yet encoding `["A"]` equals
encoding `[]`. -/
theorem C10_amended_witness :
    "A" ∈ (SequenceTokenizer.init ["A"] ["de"] true true "_"
        "<end>").token_to_idx.map Prod.fst ∧
    (SequenceTokenizer.init ["A"] ["de"] true true "_" "<end>").call
        ([] ++ "A" :: []) "de"
      = (SequenceTokenizer.init ["A"] ["de"] true true "_" "<end>").call
        ([] ++ []) "de" := by
  obtain ⟨h1, h2⟩ := C10_amended ["A"] ["de"] true "A" (by decide)
    (by decide) (by decide)
  exact ⟨h1, h2 [] [] "de"⟩

end DP
